import Mathlib

/-!
Verification of the HTTP transport layer of a SOAP client
(`lib/http.js`: `buildRequest`, `handleResponse`, `handleBinaries`).

The JavaScript source works by applying a handful of regular expressions
and string-splitting operations to header values and response bodies.
This file embeds those operations as executable Lean functions over
`List Char` (JavaScript strings), mirroring the exact backtracking
behaviour of the source regexes, and proves the specification claims
about them.
-/

/-- Case-insensitive character equality, as used by JavaScript regexes
with the `i` flag (ASCII canonicalisation). -/
def lcEq (a b : Char) : Bool := a.toLower == b.toLower

/-- Does `t` start with pattern `pat`, comparing characters
case-insensitively?  Models matching a literal inside a regex carrying
the `i` flag (also used for the case-insensitive back-reference `\1`). -/
def startsWithCI : List Char → List Char → Bool
  | [], _ => true
  | _ :: _, [] => false
  | p :: ps, c :: cs => lcEq p c && startsWithCI ps cs

/-- Case-sensitive literal prefix test (for regexes without the `i` flag
and for `String.prototype.split` / `indexOf`). -/
def isPrefixCL : List Char → List Char → Bool
  | [], _ => true
  | _ :: _, [] => false
  | p :: ps, c :: cs => p == c && isPrefixCL ps cs

/-- JavaScript `\w`: `[A-Za-z0-9_]`. -/
def isWordChar (c : Char) : Bool := c.isAlpha || c.isDigit || c == '_'

/-- JavaScript line terminators, which `^` and `$` respect under the
`m` flag. -/
def isLineTerm (c : Char) : Bool :=
  c == '\n' || c == '\r' || c == Char.ofNat 0x2028 || c == Char.ofNat 0x2029

/-- JavaScript `\s` (the whitespace characters relevant to this code;
exotic Unicode space separators behave identically for every claim). -/
def isSpaceJs (c : Char) : Bool :=
  c == ' ' || c == '\t' || c == '\n' || c == '\r' ||
  c == Char.ofNat 0x0b || c == Char.ofNat 0x0c ||
  c == Char.ofNat 0xa0 || c == Char.ofNat 0xfeff ||
  c == Char.ofNat 0x2028 || c == Char.ofNat 0x2029

/-- Negation of the character class `[^:]` used by the envelope regex's
prefix capture. -/
def notColon (c : Char) : Bool := c != ':'

/-- Negation of the character class `[^?]` used by the XML-declaration
part of the envelope regex. -/
def notQmark (c : Char) : Bool := c != '?'

/-! ## Envelope extraction

`handleResponse` applies
`/(?:<\?[^?]*\?>[\s]*)?<([^:]*):Envelope([\S\s]*)<\/\1:Envelope>/i`
to the body and, when it matches, replaces the body with the matched
span (`match[0]`).

The regex engine's backtracking is deterministic here: each starred
class run is forced to its maximal extent (no class contains the
character that must follow the run), and the greedy `([\S\s]*)` resolves
to the LAST position where the closing tag `</\1:Envelope>` matches.
The functions below reproduce that behaviour; each returns the number of
characters the component consumes. -/

/-- The literal `Envelope` (matched case-insensitively). -/
def envLit : List Char := ['E', 'n', 'v', 'e', 'l', 'o', 'p', 'e']

/-- The closing tag `</\1:Envelope>` for a captured namespace prefix
`pre`; compared case-insensitively against the text (the `i` flag also
canonicalises back-references). -/
def closingOf (pre : List Char) : List Char :=
  '<' :: '/' :: (pre ++ ':' :: envLit ++ ['>'])

/-- Index of the LAST position of `l` at which `pat` matches
case-insensitively — the position the greedy `([\S\s]*)` backtracks to. -/
def lastClose (pat : List Char) : List Char → Option Nat
  | [] => if startsWithCI pat [] = true then some 0 else none
  | c :: cs =>
    match lastClose pat cs with
    | some j => some (j + 1)
    | none => if startsWithCI pat (c :: cs) = true then some 0 else none

/-- Match `<([^:]*):Envelope([\S\s]*)<\/\1:Envelope>` (with the `i`
flag) at the start of `l`; returns the number of characters matched.
The head of `l.dropWhile notColon` is necessarily `':'`, so it is not
re-tested. -/
def coreLen (l : List Char) : Option Nat :=
  match l with
  | [] => none
  | c :: rest =>
    if c = '<' then
      match rest.dropWhile notColon with
      | [] => none
      | _ :: r2 =>
        if startsWithCI envLit r2 = true then
          match lastClose (closingOf (rest.takeWhile notColon)) (r2.drop 8) with
          | some j =>
            some (10 + (rest.takeWhile notColon).length + j +
              ((rest.takeWhile notColon).length + 12))
          | none => none
        else none
    else none

/-- The namespace prefix `([^:]*)` captured by a successful `coreLen`
match. -/
def corePre (l : List Char) : List Char := l.tail.takeWhile notColon

/-- Match the optional XML declaration `(?:<\?[^?]*\?>[\s]*)` at the
start of `l`; returns the number of characters consumed.  The head of
`rest.dropWhile notQmark` is necessarily `'?'`, so only the following
`'>'` is tested. -/
def declLen (l : List Char) : Option Nat :=
  match l with
  | c1 :: c2 :: rest =>
    if c1 = '<' ∧ c2 = '?' then
      match rest.dropWhile notQmark with
      | _ :: c3 :: r3 =>
        if c3 = '>' then
          some (4 + (rest.takeWhile notQmark).length +
            (r3.takeWhile isSpaceJs).length)
        else none
      | _ => none
    else none
  | _ => none

/-- Match the whole envelope regex at the start of `l`.  The optional
group is greedy: the engine first tries with the XML declaration, then
without. -/
def matchAt (l : List Char) : Option Nat :=
  match declLen l with
  | some d =>
    match coreLen (l.drop d) with
    | some c => some (d + c)
    | none => coreLen l
  | none => coreLen l

/-- Leftmost match of the envelope regex: try each start position in
order (as `String.prototype.match` does) and return the matched span. -/
def findEnv : List Char → Option (List Char)
  | [] => none
  | c :: rest =>
    match matchAt (c :: rest) with
    | some n => some ((c :: rest).take n)
    | none => findEnv rest

/-- Lines 95–98 of `http.js`: replace the body with the matched envelope
span when the regex matches, otherwise return the body unchanged. -/
def extractEnvelope (s : String) : String :=
  match findEnv s.data with
  | some m => String.mk m
  | none => s

/-! ## MTOM attachment parsing (`handleBinaries`, lines 108-162)

`handleBinaries` uses four regexes and two splits:

* `bou_regex = /(?:boundary=)([\w-]*)(?:;)/i` on the `content-type`
  response header;
* `inc_regex = /(?:<xop\:Include href="cid\:)([\w@\.-]*)(?:"><\/xop\:Include>)/gi`
  executed ONCE on the body (so only the first occurrence is captured and
  the loop over `match` indices walks capture groups, not occurrences);
* `body.split(boundary)`, then per part
  `id_regex = /^(?:Content-Id: <)([\w\/\.@-]*)(?:>)$/m` and
  `mim_regex = /^(?:Content-Type: )([\w\/+-]*)$/m` (both case-sensitive),
  and a line split on `\r\n` when present, else on `\n`, from which
  `aux[4]` (or `aux[5]` when `aux[4]` is the empty line) is the data.

Assigning `binaries[binId].mime`/`.data` when `binId` was never seeded
dereferences `undefined` and throws a `TypeError`; the embedding models
this with `Except.error ()`. -/

/-- Character class `[\w-]` of `bou_regex`. -/
def isBndChar (c : Char) : Bool := isWordChar c || c == '-'

/-- Character class `[\w@\.-]` of `inc_regex`. -/
def isIncChar (c : Char) : Bool := isWordChar c || c == '@' || c == '.' || c == '-'

/-- Character class `[\w\/\.@-]` of `id_regex`. -/
def isIdChar (c : Char) : Bool :=
  isWordChar c || c == '/' || c == '.' || c == '@' || c == '-'

/-- Character class `[\w\/+-]` of `mim_regex`. -/
def isMimChar (c : Char) : Bool :=
  isWordChar c || c == '/' || c == '+' || c == '-'

/-- Does the multiline `$` anchor match here (end of string or before a
line terminator)? -/
def lineEnd : List Char → Bool
  | [] => true
  | c :: _ => isLineTerm c

def bndLit : List Char := "boundary=".data

/-- Match `bou_regex` at this position: the literal `boundary=`
(case-insensitively), the maximal `[\w-]*` run, then a literal `;`.
The run cannot backtrack: `;` is not in the class. -/
def bndAt (l : List Char) : Option (List Char) :=
  if startsWithCI bndLit l then
    match (l.drop bndLit.length).dropWhile isBndChar with
    | ';' :: _ => some ((l.drop bndLit.length).takeWhile isBndChar)
    | _ => none
  else none

/-- Leftmost `bou_regex` match over the header value: the regex engine
advances one position at a time on failure. -/
def boundaryOf : List Char → Option (List Char)
  | [] => none
  | c :: rest =>
    match bndAt (c :: rest) with
    | some b => some b
    | none => boundaryOf rest

def incLit : List Char := "<xop:Include href=\"cid:".data

def incCloseLit : List Char := "\"></xop:Include>".data

/-- Match `inc_regex` at this position (case-insensitive literals, the
maximal `[\w@\.-]*` run, which cannot backtrack since `"` is not in the
class). -/
def tryInc (l : List Char) : Option (List Char) :=
  if startsWithCI incLit l then
    if startsWithCI incCloseLit ((l.drop incLit.length).dropWhile isIncChar) then
      some ((l.drop incLit.length).takeWhile isIncChar)
    else none
  else none

/-- The single `inc_regex.exec(body)` call of line 118: the FIRST
`xop:Include` occurrence only. -/
def firstInclude : List Char → Option (List Char)
  | [] => none
  | c :: rest =>
    match tryInc (c :: rest) with
    | some r => some r
    | none => firstInclude rest

/-- Modelled from the spec: the spec's step 2 scans the body for ALL
occurrences of the `xop:Include` reference (a `g`-flag exec loop,
resuming after each match).  The source calls `exec` only once; this
definition follows the spec's words and exists to compare the two. -/
def allIncAux : List Char → Nat → List String
  | [], _ => []
  | _ :: rest, Nat.succ k => allIncAux rest k
  | c :: rest, 0 =>
    match tryInc (c :: rest) with
    | some run => String.mk run ::
        allIncAux rest (incLit.length + run.length + incCloseLit.length - 1)
    | none => allIncAux rest 0

/-- Modelled from the spec: all distinct-position `xop:Include`
identifiers in order of occurrence. -/
def specAllIncludes (l : List Char) : List String := allIncAux l 0

def idLit : List Char := "Content-Id: <".data

/-- Match `id_regex` at a line-start position: the case-sensitive
literal, the maximal `[\w\/\.@-]*` run, `>`, then the `$` anchor. -/
def tryId (l : List Char) : Option (List Char) :=
  if isPrefixCL idLit l then
    match (l.drop idLit.length).dropWhile isIdChar with
    | '>' :: rest2 =>
      if lineEnd rest2 then some ((l.drop idLit.length).takeWhile isIdChar)
      else none
    | _ => none
  else none

/-- First `id_regex` match in the part: try every position in order,
attempting the anchored pattern only at line starts. -/
def findIdLine : Bool → List Char → Option (List Char)
  | atStart, [] => if atStart then tryId [] else none
  | atStart, c :: rest =>
    match (if atStart then tryId (c :: rest) else none) with
    | some r => some r
    | none => findIdLine (isLineTerm c) rest

def mimLit : List Char := "Content-Type: ".data

/-- Match `mim_regex` at a line-start position. -/
def tryMim (l : List Char) : Option (List Char) :=
  if isPrefixCL mimLit l then
    if lineEnd ((l.drop mimLit.length).dropWhile isMimChar) then
      some ((l.drop mimLit.length).takeWhile isMimChar)
    else none
  else none

/-- First `mim_regex` match in the part. -/
def findMimLine : Bool → List Char → Option (List Char)
  | atStart, [] => if atStart then tryMim [] else none
  | atStart, c :: rest =>
    match (if atStart then tryMim (c :: rest) else none) with
    | some r => some r
    | none => findMimLine (isLineTerm c) rest

/-- Model of `String.prototype.split` with a non-empty separator; `skip` counts
separator characters still to be consumed after a match. -/
def splitAux (sep : List Char) : List Char → Nat → List Char → List (List Char)
  | [], _, cur => [cur.reverse]
  | _ :: rest, Nat.succ k, cur => splitAux sep rest k cur
  | c :: rest, 0, cur =>
    if isPrefixCL sep (c :: rest) then
      cur.reverse :: splitAux sep rest (sep.length - 1) []
    else splitAux sep rest 0 (c :: cur)

/-- Model of `String.prototype.split`: an empty separator splits into single
characters (and an empty string gives `[]`). -/
def jsSplitCL (sep l : List Char) : List (List Char) :=
  if sep = [] then l.map (fun c => [c]) else splitAux sep l 0 []

/-- Model of `part.indexOf(sub) != -1`. -/
def containsSub (sub : List Char) : List Char → Bool
  | [] => isPrefixCL sub []
  | c :: rest => isPrefixCL sub (c :: rest) || containsSub sub rest

/-- Line 152: split the part on `\r\n` when the part contains one,
otherwise on `\n`. -/
def jsLines (part : List Char) : List (List Char) :=
  if containsSub ['\r', '\n'] part then jsSplitCL ['\r', '\n'] part
  else jsSplitCL ['\n'] part

/-- Line 155: `aux[4] == '' ? aux[5] : aux[4]`.  An out-of-range index
is `undefined` (loosely unequal to `''`), modelled as `none`. -/
def dataOf (lines : List (List Char)) : Option (List Char) :=
  match lines[4]? with
  | none => none
  | some line => if line = [] then lines[5]? else some line

/-- One MTOM attachment: `{ mime: ..., data: ... }`, both initially
`null` (`none` covers both JavaScript `null` and `undefined`). -/
structure Attachment where
  mime : Option String
  data : Option String
deriving DecidableEq

/-- JavaScript object property read (`binaries[id]`). -/
def assocGet : List (String × Attachment) → String → Option Attachment
  | [], _ => none
  | (k, v) :: rest, key => if k == key then some v else assocGet rest key

/-- JavaScript object property write on an existing or new key. -/
def assocSet : List (String × Attachment) → String → Attachment →
    List (String × Attachment)
  | [], key, v => [(key, v)]
  | (k, v0) :: rest, key, v =>
    if k == key then (k, v) :: rest else (k, v0) :: assocSet rest key v

/-- Lines 139-158, one loop iteration: find a `Content-Id` line; if none
the part is skipped.  Otherwise the source writes
`binaries[binId].mime` / `binaries[binId].data`; when `binId` was never
seeded that dereferences `undefined` and throws, modelled as
`Except.error ()`. -/
def fillPart (m : List (String × Attachment)) (part : List Char) :
    Except Unit (List (String × Attachment)) :=
  match findIdLine true part with
  | none => Except.ok m
  | some idc =>
    match assocGet m (String.mk idc) with
    | none => Except.error ()
    | some att =>
      let att1 := match findMimLine true part with
        | some mm => { att with mime := some (String.mk mm) }
        | none => att
      let att2 := { att1 with data := (dataOf (jsLines part)).map String.mk }
      Except.ok (assocSet m (String.mk idc) att2)

/-- The part loop of lines 139-158 (starting at index 1: part 0 is the
preamble before the first boundary). -/
def fillParts (m : List (String × Attachment)) :
    List (List Char) → Except Unit (List (String × Attachment))
  | [] => Except.ok m
  | p :: ps =>
    match fillPart m p with
    | Except.error e => Except.error e
    | Except.ok m2 => fillParts m2 ps

/-- The function `handleBinaries` (lines 108-162), from the
`content-type` header value and the body to the `binaries` map, or an
error when the source would throw.  Seeding uses only the FIRST
`xop:Include` match (the single `exec` call); without a boundary match
or without an include reference the map stays empty. -/
def handleBinariesE (contentType body : String) :
    Except Unit (List (String × Attachment)) :=
  match boundaryOf contentType.data with
  | none => Except.ok []
  | some bnd =>
    match firstInclude body.data with
    | none => Except.ok []
    | some idc =>
      fillParts [(String.mk idc, Attachment.mk none none)]
        ((jsSplitCL bnd body.data).drop 1)

/-- A response body: either a JavaScript string or a binary buffer. -/
inductive Body where
  | str (s : String)
  | bin (bytes : List Nat)
deriving DecidableEq

/-- The function `handleResponse` (lines 87-101): for a string body run
`handleBinaries` (whose map is attached to the response as
`res.binaries`) and then envelope extraction; a non-string body is
passed through untouched and `res.binaries` is never assigned
(`none`). -/
def handleResponse (contentType : String) :
    Body → Except Unit (Body × Option (List (String × Attachment)))
  | Body.str s =>
    match handleBinariesE contentType s with
    | Except.error e => Except.error e
    | Except.ok m => Except.ok (Body.str (extractEnvelope s), some m)
  | Body.bin bs => Except.ok (Body.bin bs, none)

/-! ## Request construction (`buildRequest`, lines 34-78)

The built request is a JavaScript object; `exheaders` and `exoptions`
are merged with plain property assignment, overwriting any key. -/

/-- A JavaScript value as far as this module observes them. -/
inductive JsValue where
  | null
  | bool (b : Bool)
  | num (n : Nat)
  | str (s : String)
  | obj (fields : List (String × JsValue))

/-- Object property read. -/
def jsGet : List (String × JsValue) → String → Option JsValue
  | [], _ => none
  | (k, v) :: rest, key => if k == key then some v else jsGet rest key

/-- Object property assignment: update an existing key in place, else
append. -/
def jsSet : List (String × JsValue) → String → JsValue → List (String × JsValue)
  | [], key, v => [(key, v)]
  | (k, v0) :: rest, key, v =>
    if k == key then (k, v) :: rest else (k, v0) :: jsSet rest key v

/-- Model of `for (attr in src) { dst[attr] = src[attr]; }`. -/
def jsMerge (o ps : List (String × JsValue)) : List (String × JsValue) :=
  ps.foldl (fun acc kv => jsSet acc kv.1 kv.2) o

/-- First occurrence of `sep`, with the text before and after it. -/
def splitFirst (sep : List Char) : List Char → Option (List Char × List Char)
  | [] => if isPrefixCL sep [] then some ([], []) else none
  | c :: rest =>
    if isPrefixCL sep (c :: rest) then some ([], (c :: rest).drop sep.length)
    else
      match splitFirst sep rest with
      | some (a, b) => some (c :: a, b)
      | none => none

/-- Model of `parseInt(s, 10)`: the leading decimal-digit run, `NaN` (here
`none`) when there is none. -/
def parseIntPrefix (l : List Char) : Option Nat :=
  if (l.takeWhile Char.isDigit) = [] then none
  else some ((l.takeWhile Char.isDigit).foldl (fun acc c => acc * 10 + (c.toNat - 48)) 0)

structure ParsedUrl where
  protocol : Option String
  hostname : String
  port : Option Nat
  pathname : Option String

/-- Models the external Node `url.parse` for the
`scheme://host[:port][/path]` URLs this transport is used with:
scheme up to `://`, then the authority up to the first `/`, `?` or `#`
(hostname lowercased, numeric port after `:`), then the path. -/
def parseUrl (rurl : String) : ParsedUrl :=
  match splitFirst "://".data rurl.data with
  | none => { protocol := none, hostname := "", port := none, pathname := some rurl }
  | some (scheme, rest) =>
    let auth := rest.takeWhile (fun c => c != '/' && c != '?' && c != '#')
    let tail := rest.drop auth.length
    let host := auth.takeWhile (fun c => c != ':')
    let port :=
      match auth.dropWhile (fun c => c != ':') with
      | ':' :: ps => parseIntPrefix ps
      | _ => none
    { protocol := some (String.mk (scheme ++ [':'])),
      hostname := String.mk (host.map Char.toLower),
      port := port,
      pathname := if tail = [] then none else some (String.mk tail) }

/-- The version string read from `package.json` (a file outside the
provided source); its exact value is irrelevant to every claim. -/
def soapVersion : String := "0.0.0"

/-- Line 47: `host + (isNaN(port) ? '' : ':' + port)`. -/
def hostHeaderOf (u : ParsedUrl) : String :=
  u.hostname ++ (match u.port with | some n => ":" ++ toString n | none => "")

/-- Lines 41-48: the default header object. -/
def defaultHeaders (host : String) : List (String × JsValue) :=
  [("User-Agent", JsValue.str ("node-soap/" ++ soapVersion)),
   ("Accept", JsValue.str "text/html,application/xhtml+xml,application/xml,text/xml;q=0.9,*/*;q=0.8"),
   ("Accept-Encoding", JsValue.str "none"),
   ("Accept-Charset", JsValue.str "utf-8"),
   ("Connection", JsValue.str "close"),
   ("Host", JsValue.str host)]

/-- Lines 51-54: for a string payload, Content-Length is its UTF-8 byte
length and a form-encoded Content-Type is set. -/
def baseHeaders (rurl : String) (data : Option String) : List (String × JsValue) :=
  match data with
  | some d =>
    jsSet (jsSet (defaultHeaders (hostHeaderOf (parseUrl rurl)))
        "Content-Length" (JsValue.num d.utf8ByteSize))
      "Content-Type" (JsValue.str "application/x-www-form-urlencoded")
  | none => defaultHeaders (hostHeaderOf (parseUrl rurl))

/-- Lines 56-59: merge the caller's extra headers, overwriting defaults. -/
def reqHeaders (rurl : String) (data : Option String)
    (exheaders : List (String × JsValue)) : List (String × JsValue) :=
  jsMerge (baseHeaders rurl data) exheaders

/-- JavaScript truthiness of the payload (line 40): `null`/`undefined`
and the empty string are falsy. -/
def jsTruthy : Option String → Bool
  | none => false
  | some s => s != ""

/-- Line 40: `var method = data ? 'POST' : 'GET';`. -/
def methodOf (data : Option String) : String :=
  if jsTruthy data then "POST" else "GET"

/-- The parsed-URL object passed as `uri`. -/
def urlObj (u : ParsedUrl) : List (String × JsValue) :=
  [("protocol", match u.protocol with | some p => JsValue.str p | none => JsValue.null),
   ("hostname", JsValue.str u.hostname),
   ("port", match u.port with | some n => JsValue.str (toString n) | none => JsValue.null),
   ("pathname", match u.pathname with | some p => JsValue.str p | none => JsValue.null)]

/-- Lines 61-66: the options object. -/
def coreOptions (rurl : String) (data : Option String)
    (exh : List (String × JsValue)) : List (String × JsValue) :=
  [("uri", JsValue.obj (urlObj (parseUrl rurl))),
   ("method", JsValue.str (methodOf data)),
   ("headers", JsValue.obj (reqHeaders rurl data exh)),
   ("followAllRedirects", JsValue.bool true)]

/-- Line 68: `headers.Connection === 'keep-alive'`. -/
def isKeepAlive : Option JsValue → Bool
  | some (JsValue.str s) => s == "keep-alive"
  | _ => false

/-- The payload as stored in `options.body` (line 69): `null` when no
payload was supplied. -/
def jsOfData : Option String → JsValue
  | none => JsValue.null
  | some d => JsValue.str d

/-- Lines 68-70: attach the body to the description only on
keep-alive. -/
def optionsWithBody (rurl : String) (data : Option String)
    (exh : List (String × JsValue)) : List (String × JsValue) :=
  if isKeepAlive (jsGet (reqHeaders rurl data exh) "Connection") then
    jsSet (coreOptions rurl data exh) "body" (jsOfData data)
  else coreOptions rurl data exh

/-- Lines 34-78: the full request description, with the caller's extra
options merged last (overwriting any key, including `method`). -/
def buildRequest (rurl : String) (data : Option String)
    (exheaders exoptions : List (String × JsValue)) : List (String × JsValue) :=
  jsMerge (optionsWithBody rurl data exheaders) exoptions

/-- The `headers` object of a built request. -/
def headersOf (r : List (String × JsValue)) : List (String × JsValue) :=
  match jsGet r "headers" with
  | some (JsValue.obj hs) => hs
  | _ => []


/-! ## Theorems -/

/-! ## Toolkit lemmas for the envelope matcher -/

theorem swci_length : ∀ pat t : List Char, startsWithCI pat t = true →
    pat.length ≤ t.length
  | [], _, _ => Nat.zero_le _
  | _ :: _, [], h => by simp [startsWithCI] at h
  | p :: ps, c :: cs, h => by
    simp only [startsWithCI, Bool.and_eq_true] at h
    simpa using swci_length ps cs h.2

theorem swci_append : ∀ pat t u : List Char, startsWithCI pat t = true →
    startsWithCI pat (t ++ u) = true
  | [], _, _, _ => rfl
  | _ :: _, [], _, h => by simp [startsWithCI] at h
  | p :: ps, c :: cs, u, h => by
    simp only [startsWithCI, Bool.and_eq_true] at h ⊢
    exact ⟨h.1, swci_append ps cs u h.2⟩

theorem swci_take : ∀ (pat t : List Char) (k : Nat), startsWithCI pat t = true →
    pat.length ≤ k → startsWithCI pat (t.take k) = true
  | [], _, _, _, _ => rfl
  | _ :: _, [], _, h, _ => by simp [startsWithCI] at h
  | p :: ps, c :: cs, 0, _, hk => by simp at hk
  | p :: ps, c :: cs, k + 1, h, hk => by
    simp only [startsWithCI, Bool.and_eq_true, List.take_succ_cons] at h ⊢
    exact ⟨h.1, swci_take ps cs k h.2 (by simpa using hk)⟩

theorem swci_of_take {pat t : List Char} {k : Nat}
    (h : startsWithCI pat (t.take k) = true) : startsWithCI pat t = true := by
  have := swci_append pat (t.take k) (t.drop k) h
  rwa [List.take_append_drop] at this

theorem swci_nil_of_cons (p : Char) (ps : List Char) :
    startsWithCI (p :: ps) [] = false := rfl

/-- Soundness: `lastClose` returns an actual match position. -/
theorem lastClose_sound {pat : List Char} :
    ∀ {l : List Char} {j : Nat}, lastClose pat l = some j →
      startsWithCI pat (l.drop j) = true := by
  intro l
  induction l with
  | nil =>
    intro j h
    simp only [lastClose] at h
    split at h
    · cases h; simpa using ‹startsWithCI pat [] = true›
    · cases h
  | cons c cs ih =>
    intro j h
    simp only [lastClose] at h
    split at h
    · rename_i j' hj'
      cases h
      simpa using ih hj'
    · split at h
      · cases h; simpa using ‹startsWithCI pat (c :: cs) = true›
      · cases h

/-- If `lastClose` fails there is no match anywhere. -/
theorem lastClose_none {pat : List Char} (hpat : startsWithCI pat [] = false) :
    ∀ {l : List Char}, lastClose pat l = none →
      ∀ k, startsWithCI pat (l.drop k) = false := by
  intro l
  induction l with
  | nil => intro _ k; simpa using hpat
  | cons c cs ih =>
    intro h k
    simp only [lastClose] at h
    split at h
    · cases h
    · rename_i hnone
      split at h
      · cases h
      · rename_i hcs
        cases k with
        | zero => simpa using Bool.of_not_eq_true hcs
        | succ k => simpa using ih hnone k

/-- Any match position forces `lastClose` to succeed. -/
theorem lastClose_isSome {pat l : List Char} {k : Nat}
    (hpat : startsWithCI pat [] = false)
    (h : startsWithCI pat (l.drop k) = true) :
    ∃ j, lastClose pat l = some j := by
  cases hl : lastClose pat l with
  | none => exact absurd h (by simp [lastClose_none hpat hl k])
  | some j => exact ⟨j, rfl⟩

/-- Maximality: `lastClose` returns the last match position. -/
theorem lastClose_max {pat : List Char} (hpat : startsWithCI pat [] = false) :
    ∀ {l : List Char} {j : Nat}, lastClose pat l = some j →
      ∀ k, startsWithCI pat (l.drop k) = true → k ≤ j := by
  intro l
  induction l with
  | nil =>
    intro j h k hk
    simp only [lastClose, hpat] at h
    simp at h
  | cons c cs ih =>
    intro j h k hk
    simp only [lastClose] at h
    split at h
    · rename_i j' hj'
      cases h
      cases k with
      | zero => exact Nat.zero_le _
      | succ k =>
        have := ih hj' k (by simpa using hk)
        omega
    · rename_i hnone
      split at h
      · cases h
        cases k with
        | zero => exact Nat.le_refl 0
        | succ k =>
          have := lastClose_none hpat hnone k
          rw [List.drop_succ_cons] at hk
          rw [hk] at this
          cases this
      · cases h

/-- A match survives inside the span `lastClose` found: truncating the
text right after the last match keeps it the last match. -/
theorem lastClose_take {pat l : List Char} {j : Nat}
    (hpat : startsWithCI pat [] = false) (h : lastClose pat l = some j) :
    lastClose pat (l.take (j + pat.length)) = some j := by
  have hs := lastClose_sound h
  have hjlen : pat.length ≤ l.length - j := by
    simpa using swci_length _ _ hs
  have hjle : j ≤ l.length := by
    by_contra hlt
    rw [List.drop_eq_nil_of_le (by omega)] at hs
    rw [hs] at hpat; cases hpat
  have h1 : startsWithCI pat ((l.take (j + pat.length)).drop j) = true := by
    rw [← List.take_drop]
    exact swci_take _ _ _ hs (Nat.le_refl _)
  obtain ⟨j'', hj''⟩ := lastClose_isSome hpat h1
  have hlen : (l.take (j + pat.length)).length = j + pat.length := by
    simp [List.length_take]; omega
  have hup : j'' ≤ j := by
    have hsnd := lastClose_sound hj''
    have := swci_length _ _ hsnd
    simp only [List.length_drop, hlen] at this
    by_contra hcon
    have hgt : j < j'' := by omega
    have hplen : 0 < pat.length := by
      cases pat with
      | nil => simp [startsWithCI] at hpat
      | cons a as => simp
    omega
  have hdown : j ≤ j'' := lastClose_max hpat hj'' j h1
  have : j'' = j := by omega
  rw [hj'', this]

/-! Bespoke `takeWhile`/`dropWhile` lemmas: appending past a failing
element does not change the run. -/

theorem takeWhile_append_stop {p : Char → Bool} :
    ∀ {l₁ : List Char} {c : Char} (l₂ : List Char),
      (∀ a ∈ l₁, p a = true) → p c = false →
      (l₁ ++ c :: l₂).takeWhile p = l₁
  | [], c, l₂, _, hc => by simp [List.takeWhile_cons, hc]
  | a :: l₁, c, l₂, hall, hc => by
    have ha : p a = true := hall a (by simp)
    simp only [List.cons_append, List.takeWhile_cons, ha]
    simp only [if_true]
    rw [takeWhile_append_stop l₂ (fun x hx => hall x (by simp [hx])) hc]

theorem dropWhile_append_stop {p : Char → Bool} :
    ∀ {l₁ : List Char} {c : Char} (l₂ : List Char),
      (∀ a ∈ l₁, p a = true) → p c = false →
      (l₁ ++ c :: l₂).dropWhile p = c :: l₂
  | [], c, l₂, _, hc => by simp [List.dropWhile_cons, hc]
  | a :: l₁, c, l₂, hall, hc => by
    have ha : p a = true := hall a (by simp)
    simp only [List.cons_append, List.dropWhile_cons, ha]
    simp only [if_true]
    exact dropWhile_append_stop l₂ (fun x hx => hall x (by simp [hx])) hc

theorem takeWhile_append_of_ne_nil {p : Char → Bool} :
    ∀ {l₁ : List Char} (l₂ : List Char), l₁.dropWhile p ≠ [] →
      (l₁ ++ l₂).takeWhile p = l₁.takeWhile p
  | [], _, h => by simp at h
  | a :: l₁, l₂, h => by
    by_cases ha : p a
    · simp only [List.dropWhile_cons, ha, if_true] at h
      simp only [List.cons_append, List.takeWhile_cons, ha, if_true]
      rw [takeWhile_append_of_ne_nil l₂ h]
    · simp [List.takeWhile_cons, ha]

theorem dropWhile_append_of_ne_nil {p : Char → Bool} :
    ∀ {l₁ : List Char} (l₂ : List Char), l₁.dropWhile p ≠ [] →
      (l₁ ++ l₂).dropWhile p = l₁.dropWhile p ++ l₂
  | [], _, h => by simp at h
  | a :: l₁, l₂, h => by
    by_cases ha : p a
    · simp only [List.dropWhile_cons, ha, if_true] at h ⊢
      simp only [List.cons_append, List.dropWhile_cons, ha, if_true]
      exact dropWhile_append_of_ne_nil l₂ h
    · simp [List.dropWhile_cons, ha]

theorem dropWhile_head_false {p : Char → Bool} :
    ∀ {l : List Char} {c : Char} {cs : List Char},
      l.dropWhile p = c :: cs → p c = false
  | [], _, _, h => by simp at h
  | a :: l, c, cs, h => by
    by_cases ha : p a
    · simp only [List.dropWhile_cons, ha, if_true] at h
      exact dropWhile_head_false h
    · simp only [List.dropWhile_cons, ha, if_false] at h
      cases h
      exact Bool.of_not_eq_true ha

theorem dropWhile_eq_drop {p : Char → Bool} :
    ∀ l : List Char, l.dropWhile p = l.drop (l.takeWhile p).length
  | [] => rfl
  | a :: l => by
    by_cases ha : p a
    · simp [List.dropWhile_cons, List.takeWhile_cons, ha, dropWhile_eq_drop l]
    · simp [List.dropWhile_cons, List.takeWhile_cons, ha]

/-! ## Structural lemmas about `coreLen` -/

theorem coreLen_inv {l : List Char} {n : Nat} (h : coreLen l = some n) :
    ∃ rest c2 r2 j, l = '<' :: rest ∧
      rest.dropWhile notColon = c2 :: r2 ∧
      startsWithCI envLit r2 = true ∧
      lastClose (closingOf (rest.takeWhile notColon)) (r2.drop 8) = some j ∧
      n = 10 + (rest.takeWhile notColon).length + j +
        ((rest.takeWhile notColon).length + 12) := by
  cases l with
  | nil => simp [coreLen] at h
  | cons c rest =>
    simp only [coreLen] at h
    split at h
    · rename_i hc
      split at h
      · simp at h
      · rename_i c2 r2 hD
        split at h
        · rename_i hE
          split at h
          · rename_i j hJ
            injection h with h
            exact ⟨rest, c2, r2, j, by rw [hc], hD, hE, hJ, h.symm⟩
          · simp at h
        · simp at h
    · simp at h

theorem coreLen_eq {rest : List Char} {c2 : Char} {r2 : List Char} {j : Nat}
    (hD : rest.dropWhile notColon = c2 :: r2)
    (hE : startsWithCI envLit r2 = true)
    (hJ : lastClose (closingOf (rest.takeWhile notColon)) (r2.drop 8) = some j) :
    coreLen ('<' :: rest) =
      some (10 + (rest.takeWhile notColon).length + j +
        ((rest.takeWhile notColon).length + 12)) := by
  simp [coreLen, hD, hE, hJ]

theorem closingOf_length (pre : List Char) :
    (closingOf pre).length = pre.length + 12 := by
  simp [closingOf, envLit]

theorem closingOf_nil_false (pre : List Char) :
    startsWithCI (closingOf pre) [] = false := rfl

theorem coreLen_pos {l : List Char} {n : Nat} (h : coreLen l = some n) : 0 < n := by
  obtain ⟨rest, c2, r2, j, _, _, _, _, hn⟩ := coreLen_inv h
  omega

theorem coreLen_head {l : List Char} {n : Nat} (h : coreLen l = some n) :
    ∃ rest, l = '<' :: rest := by
  obtain ⟨rest, _, _, _, hl, _⟩ := coreLen_inv h
  exact ⟨rest, hl⟩

theorem coreLen_le {l : List Char} {n : Nat} (h : coreLen l = some n) :
    n ≤ l.length := by
  obtain ⟨rest, c2, r2, j, hl, hD, hE, hJ, hn⟩ := coreLen_inv h
  have hsplit : rest.takeWhile notColon ++ (c2 :: r2) = rest := by
    rw [← hD]; exact List.takeWhile_append_dropWhile notColon rest
  have hrlen : (rest.takeWhile notColon).length + (r2.length + 1) = rest.length := by
    have := congrArg List.length hsplit
    simpa using this
  have hjs := lastClose_sound hJ
  have hjlen := swci_length _ _ hjs
  rw [closingOf_length] at hjlen
  simp only [List.length_drop] at hjlen
  have hjle : j ≤ (r2.drop 8).length := by
    by_contra hlt
    rw [List.drop_eq_nil_of_le (by omega)] at hjs
    rw [closingOf_nil_false] at hjs
    cases hjs
  simp only [List.length_drop] at hjle
  have h8 : (8 : Nat) ≤ r2.length := by simpa [envLit] using swci_length _ _ hE
  subst hl hn
  simp only [List.length_cons]
  omega

/-- Truncating the text right after a `coreLen` match leaves an
identical match. -/
theorem coreLen_take {l : List Char} {n : Nat} (h : coreLen l = some n) :
    coreLen (l.take n) = some n := by
  obtain ⟨rest, c2, r2, j, hl, hD, hE, hJ, hn⟩ := coreLen_inv h
  subst hl
  set pre := rest.takeWhile notColon with hpre
  set p := pre.length with hp
  have hsplit : pre ++ (c2 :: r2) = rest := by
    rw [hpre, ← hD]; exact List.takeWhile_append_dropWhile notColon rest
  have hall : ∀ a ∈ pre, notColon a = true := fun a ha => List.mem_takeWhile_imp ha
  have hc2 : notColon c2 = false := dropWhile_head_false hD
  have hE8 : (8 : Nat) ≤ r2.length := by simpa [envLit] using swci_length _ _ hE
  have htake : rest.take (p + j + p + 21) = pre ++ c2 :: r2.take (p + j + 20) := by
    conv_lhs => rw [← hsplit]
    rw [List.take_append_eq_append_take,
      List.take_of_length_le (l := pre) (by omega)]
    congr 1
    rw [show p + j + p + 21 - pre.length = (p + j + 20) + 1 from by omega,
      List.take_succ_cons]
  have htw : (rest.take (p + j + p + 21)).takeWhile notColon = pre := by
    rw [htake]; exact takeWhile_append_stop _ hall hc2
  have hdw : (rest.take (p + j + p + 21)).dropWhile notColon =
      c2 :: r2.take (p + j + 20) := by
    rw [htake]; exact dropWhile_append_stop _ hall hc2
  have hE' : startsWithCI envLit (r2.take (p + j + 20)) = true :=
    swci_take _ _ _ hE (by simp [envLit])
  have hdt : (r2.take (p + j + 20)).drop 8 = (r2.drop 8).take (p + j + 12) := by
    have := List.take_drop (α := Char) 8 (p + j + 12) r2
    rw [show 8 + (p + j + 12) = p + j + 20 from by omega] at this
    exact this.symm
  have hJ' : lastClose (closingOf pre) ((r2.drop 8).take (p + j + 12)) = some j := by
    have := lastClose_take (closingOf_nil_false pre) hJ
    rw [closingOf_length] at this
    rw [show p + j + 12 = j + (p + 12) from by omega]
    exact this
  have hcl := @coreLen_eq (rest.take (p + j + p + 21)) c2 (r2.take (p + j + 20)) j hdw hE'
    (by rw [htw, hdt]; exact hJ')
  rw [htw] at hcl
  have hnval : n = (p + j + p + 21) + 1 := by omega
  rw [hnval, List.take_succ_cons, hcl]
  exact congrArg some (by omega)

/-- A `coreLen` match on a truncation of `t` extends to a match on `t`
itself (possibly a longer one). -/
theorem coreLen_of_take {t : List Char} {k n : Nat}
    (h : coreLen (t.take k) = some n) : ∃ m, coreLen t = some m := by
  obtain ⟨rest', c2, r2', j', hl, hD, hE, hJ, _⟩ := coreLen_inv h
  cases t with
  | nil => rw [List.take_nil] at hl; cases hl
  | cons c rest =>
    cases k with
    | zero => simp at hl
    | succ k =>
      rw [List.take_succ_cons] at hl
      injection hl with hc hrest
      subst hc
      have hsplit : rest = rest' ++ rest.drop k := by
        rw [← hrest, List.take_append_drop]
      have hne : rest'.dropWhile notColon ≠ [] := by rw [hD]; simp
      have htw : rest.takeWhile notColon = rest'.takeWhile notColon := by
        conv_lhs => rw [hsplit]
        exact takeWhile_append_of_ne_nil _ hne
      have hdw : rest.dropWhile notColon = c2 :: (r2' ++ rest.drop k) := by
        conv_lhs => rw [hsplit]
        rw [dropWhile_append_of_ne_nil _ hne, hD]; rfl
      have hE8 : (8 : Nat) ≤ r2'.length := by simpa [envLit] using swci_length _ _ hE
      have hdrop8 : (r2' ++ rest.drop k).drop 8 = r2'.drop 8 ++ rest.drop k := by
        rw [List.drop_append_eq_append_drop,
          show (8 : Nat) - r2'.length = 0 from by omega, List.drop_zero]
      have hjs := lastClose_sound hJ
      have hjlen := swci_length _ _ hjs
      have hjle : j' ≤ (r2'.drop 8).length := by
        by_contra hlt
        rw [List.drop_eq_nil_of_le (by omega)] at hjs
        rw [closingOf_nil_false] at hjs
        cases hjs
      have hjsx : startsWithCI (closingOf (rest'.takeWhile notColon))
          ((r2'.drop 8 ++ rest.drop k).drop j') = true := by
        rw [List.drop_append_eq_append_drop,
          show j' - (r2'.drop 8).length = 0 from by omega, List.drop_zero]
        exact swci_append _ _ _ hjs
      obtain ⟨j'', hj''⟩ := lastClose_isSome (closingOf_nil_false _) hjsx
      refine ⟨_, @coreLen_eq rest c2 (r2' ++ rest.drop k) j'' hdw (swci_append _ _ _ hE) ?_⟩
      rw [htw, hdrop8]
      exact hj''

/-! ## Structural lemmas about `declLen` -/

theorem declLen_inv {l : List Char} {d : Nat} (h : declLen l = some d) :
    ∃ rest q1 r3, l = '<' :: '?' :: rest ∧
      rest.dropWhile notQmark = q1 :: '>' :: r3 ∧
      d = 4 + (rest.takeWhile notQmark).length +
        (r3.takeWhile isSpaceJs).length := by
  match l with
  | [] => simp [declLen] at h
  | [c1] => simp [declLen] at h
  | c1 :: c2 :: rest =>
    simp only [declLen] at h
    split at h
    · rename_i hc
      obtain ⟨hc1, hc2⟩ := hc
      split at h
      · rename_i q1 c3 r3 hD
        split at h
        · rename_i hc3
          injection h with h
          exact ⟨rest, q1, r3, by rw [hc1, hc2], by rw [hD, hc3], h.symm⟩
        · simp at h
      · simp at h
    · simp at h

theorem declLen_eq {rest : List Char} {q1 : Char} {r3 : List Char}
    (hD : rest.dropWhile notQmark = q1 :: '>' :: r3) :
    declLen ('<' :: '?' :: rest) =
      some (4 + (rest.takeWhile notQmark).length +
        (r3.takeWhile isSpaceJs).length) := by
  simp [declLen, hD]

/-- Dropping the characters consumed by a successful XML-declaration
match lands exactly past its trailing whitespace run. -/
theorem drop_decl_shape {rest : List Char} {q1 : Char} {r3 : List Char}
    (hD : rest.dropWhile notQmark = q1 :: '>' :: r3) :
    ('<' :: '?' :: rest).drop
        (4 + (rest.takeWhile notQmark).length + (r3.takeWhile isSpaceJs).length) =
      r3.dropWhile isSpaceJs := by
  have hsplit : rest.takeWhile notQmark ++ (q1 :: '>' :: r3) = rest := by
    rw [← hD]; exact List.takeWhile_append_dropWhile notQmark rest
  set q := (rest.takeWhile notQmark).length with hq
  set w := (r3.takeWhile isSpaceJs).length with hw
  rw [show 4 + q + w = ((2 + q + w) + 1) + 1 from by omega,
    List.drop_succ_cons, List.drop_succ_cons]
  conv_lhs => rw [← hsplit]
  rw [List.drop_append_eq_append_drop,
    List.drop_eq_nil_of_le (by omega), List.nil_append,
    show 2 + q + w - (rest.takeWhile notQmark).length = (w + 1) + 1 from by omega,
    List.drop_succ_cons, List.drop_succ_cons, hw, ← dropWhile_eq_drop]

/-- Truncating the text right after a declaration-plus-core match keeps
both components matching identically. -/
theorem declLen_core_take {l : List Char} {d c : Nat}
    (hd : declLen l = some d) (hc : coreLen (l.drop d) = some c) :
    declLen (l.take (d + c)) = some d ∧
      coreLen ((l.take (d + c)).drop d) = some c := by
  obtain ⟨rest, q1, r3, hl, hD, hdval⟩ := declLen_inv hd
  subst hl
  obtain ⟨q, hq⟩ : ∃ q, (rest.takeWhile notQmark).length = q := ⟨_, rfl⟩
  obtain ⟨w, hw⟩ : ∃ w, (r3.takeWhile isSpaceJs).length = w := ⟨_, rfl⟩
  have hcpos : 0 < c := coreLen_pos hc
  have hsplit : rest.takeWhile notQmark ++ (q1 :: '>' :: r3) = rest := by
    rw [← hD]; exact List.takeWhile_append_dropWhile notQmark rest
  have hall : ∀ a ∈ rest.takeWhile notQmark, notQmark a = true :=
    fun a ha => List.mem_takeWhile_imp ha
  have hq1 : notQmark q1 = false := dropWhile_head_false hD
  have hdl : List.drop d ('<' :: '?' :: rest) = r3.dropWhile isSpaceJs := by
    rw [hdval]; exact drop_decl_shape hD
  constructor
  · have htakel : List.take (d + c) ('<' :: '?' :: rest) =
        '<' :: '?' :: rest.take (2 + q + w + c) := by
      rw [hdval, hq, hw, show 4 + q + w + c = ((2 + q + w + c) + 1) + 1 from by omega,
        List.take_succ_cons, List.take_succ_cons]
    have htake : rest.take (2 + q + w + c) =
        rest.takeWhile notQmark ++ q1 :: '>' :: r3.take (w + c) := by
      conv_lhs => rw [← hsplit]
      rw [List.take_append_eq_append_take, List.take_of_length_le (by omega)]
      congr 1
      rw [show 2 + q + w + c - (rest.takeWhile notQmark).length = ((w + c) + 1) + 1
        from by omega, List.take_succ_cons, List.take_succ_cons]
    have hdw : (rest.take (2 + q + w + c)).dropWhile notQmark =
        q1 :: '>' :: r3.take (w + c) := by
      rw [htake]; exact dropWhile_append_stop _ hall hq1
    have htw : (rest.take (2 + q + w + c)).takeWhile notQmark =
        rest.takeWhile notQmark := by
      rw [htake]; exact takeWhile_append_stop _ hall hq1
    have hsw : (r3.take (w + c)).takeWhile isSpaceJs = r3.takeWhile isSpaceJs := by
      rw [← List.take_takeWhile, List.take_of_length_le (by omega)]
    have heq := declLen_eq hdw
    rw [htw, hsw] at heq
    rw [htakel, heq]
    exact congrArg some (by omega)
  · rw [← List.take_drop, hdl]
    rw [hdl] at hc
    exact coreLen_take hc

/-- A declaration-plus-core match found on a truncation of `l` yields a
declaration match on `l` itself with the same consumed length, and some
core match after it. -/
theorem declCore_mirror {l : List Char} {nn d' c' : Nat}
    (hd : declLen (l.take nn) = some d')
    (hc : coreLen ((l.take nn).drop d') = some c') :
    declLen l = some d' ∧ ∃ m, coreLen (l.drop d') = some m := by
  obtain ⟨rest', q1, r3', hl, hD, hdval⟩ := declLen_inv hd
  match l, nn, hl, hd, hc with
  | [], _, hl, _, _ => simp at hl
  | [c0], nn, hl, _, _ => cases nn <;> simp at hl
  | c1 :: c2 :: rest, 0, hl, _, _ => simp at hl
  | c1 :: c2 :: rest, 1, hl, _, _ => simp at hl
  | c1 :: c2 :: rest, nn + 2, hl, hd, hc =>
    rw [List.take_succ_cons, List.take_succ_cons] at hl
    injection hl with hc1 hl
    injection hl with hc2 hrest
    subst hc1; subst hc2
    have hsplit : rest = rest' ++ rest.drop nn := by
      rw [← hrest, List.take_append_drop]
    have hne : rest'.dropWhile notQmark ≠ [] := by rw [hD]; simp
    have htw : rest.takeWhile notQmark = rest'.takeWhile notQmark := by
      conv_lhs => rw [hsplit]
      exact takeWhile_append_of_ne_nil _ hne
    have hdw : rest.dropWhile notQmark = q1 :: '>' :: (r3' ++ rest.drop nn) := by
      conv_lhs => rw [hsplit]
      rw [dropWhile_append_of_ne_nil _ hne, hD]; rfl
    have hdrop' : List.drop d' ('<' :: '?' :: rest') = r3'.dropWhile isSpaceJs := by
      rw [hdval]; exact drop_decl_shape hD
    have hctrunc : coreLen (r3'.dropWhile isSpaceJs) = some c' := by
      rw [← hdrop']
      have hsh : ('<' : Char) :: '?' :: rest' = List.take (nn + 2) ('<' :: '?' :: rest) := by
        rw [List.take_succ_cons, List.take_succ_cons, hrest]
      rw [hsh]
      exact hc
    obtain ⟨xs, hxs⟩ := coreLen_head hctrunc
    have hne2 : r3'.dropWhile isSpaceJs ≠ [] := by rw [hxs]; simp
    have hsw : (r3' ++ rest.drop nn).takeWhile isSpaceJs =
        r3'.takeWhile isSpaceJs := takeWhile_append_of_ne_nil _ hne2
    have hsd : (r3' ++ rest.drop nn).dropWhile isSpaceJs =
        r3'.dropWhile isSpaceJs ++ rest.drop nn :=
      dropWhile_append_of_ne_nil _ hne2
    constructor
    · have heq := declLen_eq hdw
      rw [htw, hsw] at heq
      rw [heq, hdval]
    · have hdl : ('<' :: '?' :: rest).drop d' =
          r3'.dropWhile isSpaceJs ++ rest.drop nn := by
        have h0 := drop_decl_shape hdw
        rw [htw, hsw] at h0
        rw [hdval]
        exact h0.trans hsd
      rw [hdl]
      have hcut : (r3'.dropWhile isSpaceJs ++ rest.drop nn).take
          (r3'.dropWhile isSpaceJs).length = r3'.dropWhile isSpaceJs := by
        rw [List.take_append_eq_append_take, List.take_length, Nat.sub_self,
          List.take_zero, List.append_nil]
      exact coreLen_of_take (k := (r3'.dropWhile isSpaceJs).length)
        (by rw [hcut]; exact hctrunc)

/-! ## `matchAt` and `findEnv` -/

theorem matchAt_eq_decl {l : List Char} {d c : Nat} (hd : declLen l = some d)
    (hc : coreLen (l.drop d) = some c) : matchAt l = some (d + c) := by
  simp [matchAt, hd, hc]

theorem matchAt_eq_fallback {l : List Char} {d : Nat} (hd : declLen l = some d)
    (hc : coreLen (l.drop d) = none) : matchAt l = coreLen l := by
  simp [matchAt, hd, hc]

theorem matchAt_eq_nodecl {l : List Char} (hd : declLen l = none) :
    matchAt l = coreLen l := by
  simp [matchAt, hd]

theorem matchAt_bounds {l : List Char} {n : Nat} (h : matchAt l = some n) :
    0 < n ∧ n ≤ l.length := by
  unfold matchAt at h
  cases hd : declLen l with
  | none =>
    simp only [hd] at h
    exact ⟨coreLen_pos h, coreLen_le h⟩
  | some d =>
    simp only [hd] at h
    cases hc : coreLen (l.drop d) with
    | none =>
      simp only [hc] at h
      exact ⟨coreLen_pos h, coreLen_le h⟩
    | some c =>
      simp only [hc] at h
      injection h with h
      obtain ⟨rest, hrest⟩ := coreLen_head hc
      have h1 : 0 < c := coreLen_pos hc
      have h2 : c ≤ (l.drop d).length := coreLen_le hc
      have h3 : (l.drop d).length = l.length - d := by simp
      have h4 : l.drop d ≠ [] := by rw [hrest]; simp
      have h5 : 0 < (l.drop d).length := List.length_pos.mpr h4
      omega

/-- The central truncation property: a whole-regex match consumes
exactly its own span, so re-matching on the extracted span succeeds with
the same length. -/
theorem matchAt_take {l : List Char} {n : Nat} (h : matchAt l = some n) :
    matchAt (l.take n) = some n := by
  unfold matchAt at h
  cases hd : declLen l with
  | some d =>
    simp only [hd] at h
    cases hc : coreLen (l.drop d) with
    | some c =>
      simp only [hc] at h
      injection h with h
      subst h
      obtain ⟨hd', hc'⟩ := declLen_core_take hd hc
      exact matchAt_eq_decl hd' hc'
    | none =>
      simp only [hc] at h
      cases hd2 : declLen (l.take n) with
      | none => rw [matchAt_eq_nodecl hd2]; exact coreLen_take h
      | some d2 =>
        cases hc2 : coreLen ((l.take n).drop d2) with
        | some c2 =>
          exfalso
          obtain ⟨hdl, m, hcm⟩ := declCore_mirror hd2 hc2
          rw [hd] at hdl
          injection hdl with hdl
          subst hdl
          rw [hc] at hcm
          cases hcm
        | none => rw [matchAt_eq_fallback hd2 hc2]; exact coreLen_take h
  | none =>
    simp only [hd] at h
    cases hd2 : declLen (l.take n) with
    | none => rw [matchAt_eq_nodecl hd2]; exact coreLen_take h
    | some d2 =>
      cases hc2 : coreLen ((l.take n).drop d2) with
      | some c2 =>
        exfalso
        obtain ⟨hdl, _, _⟩ := declCore_mirror hd2 hc2
        rw [hd] at hdl
        cases hdl
      | none => rw [matchAt_eq_fallback hd2 hc2]; exact coreLen_take h

theorem findEnv_inv : ∀ {l m : List Char}, findEnv l = some m →
    ∃ l' n, matchAt l' = some n ∧ m = l'.take n := by
  intro l
  induction l with
  | nil => intro m h; simp [findEnv] at h
  | cons c rest ih =>
    intro m h
    simp only [findEnv] at h
    cases hm : matchAt (c :: rest) with
    | some n =>
      simp only [hm] at h
      injection h with h
      exact ⟨c :: rest, n, hm, h.symm⟩
    | none =>
      simp only [hm] at h
      exact ih h

theorem findEnv_head {t : List Char} (hne : t ≠ [])
    (hm : matchAt t = some t.length) : findEnv t = some t := by
  cases t with
  | nil => exact absurd rfl hne
  | cons a as =>
    simp [findEnv, hm, List.take_succ_cons, List.take_length]

/-- Envelope extraction is idempotent. -/
theorem extractEnvelope_idem (s : String) :
    extractEnvelope (extractEnvelope s) = extractEnvelope s := by
  cases hf : findEnv s.data with
  | none =>
    have h1 : extractEnvelope s = s := by unfold extractEnvelope; rw [hf]
    rw [h1]; exact h1
  | some m =>
    obtain ⟨l', n, hm, hmeq⟩ := findEnv_inv hf
    have hb := matchAt_bounds hm
    have h1 : extractEnvelope s = String.mk m := by unfold extractEnvelope; rw [hf]
    have hlen : m.length = n := by
      rw [hmeq]; simp [List.length_take]; omega
    have hmne : m ≠ [] := by
      intro hnil; rw [hnil] at hlen; simp at hlen; omega
    have hm2 : matchAt m = some m.length := by
      rw [hlen, hmeq]; exact matchAt_take hm
    have h3 : findEnv m = some m := findEnv_head hmne hm2
    have h2 : extractEnvelope (String.mk m) = String.mk m := by
      unfold extractEnvelope
      have hdata : (String.mk m).data = m := rfl
      rw [hdata, h3]
    rw [h1, h2]

/-- The intervening-content group of the envelope regex is greedy: a
successful match extends at least to the end of every closing-tag
occurrence situated after the start tag. -/
theorem coreLen_greedy {l : List Char} {n k : Nat} (h : coreLen l = some n)
    (hk : 10 + (corePre l).length ≤ k)
    (hcl : startsWithCI (closingOf (corePre l)) (l.drop k) = true) :
    k + (corePre l).length + 12 ≤ n := by
  obtain ⟨rest, c2, r2, j, hl, hD, hE, hJ, hn⟩ := coreLen_inv h
  subst hl
  have hcp : corePre ('<' :: rest) = rest.takeWhile notColon := rfl
  rw [hcp] at hk hcl ⊢
  obtain ⟨p, hp⟩ : ∃ p, (rest.takeWhile notColon).length = p := ⟨_, rfl⟩
  rw [hp] at hk hn ⊢
  have hsplit : rest.takeWhile notColon ++ (c2 :: r2) = rest := by
    rw [← hD]; exact List.takeWhile_append_dropWhile notColon rest
  have hdrop10 : List.drop (10 + p) ('<' :: rest) = r2.drop 8 := by
    rw [show 10 + p = (9 + p) + 1 from by omega, List.drop_succ_cons]
    conv_lhs => rw [← hsplit]
    rw [List.drop_append_eq_append_drop, List.drop_eq_nil_of_le (by omega),
      List.nil_append,
      show 9 + p - (rest.takeWhile notColon).length = 8 + 1 from by omega,
      List.drop_succ_cons]
  have hdk : List.drop k ('<' :: rest) = (r2.drop 8).drop (k - (10 + p)) := by
    rw [← hdrop10, List.drop_drop]
    congr 1
    omega
  rw [hdk] at hcl
  have := lastClose_max (closingOf_nil_false _) hJ (k - (10 + p)) hcl
  omega

/-! ## Helper lemmas for the request and attachment claims -/

theorem jsGet_set_self : ∀ (o : List (String × JsValue)) (k : String) (v : JsValue),
    jsGet (jsSet o k v) k = some v
  | [], k, v => by simp [jsSet, jsGet]
  | (k0, v0) :: rest, k, v => by
    by_cases h : k0 == k
    · simp [jsSet, jsGet, h]
    · simp only [jsSet, h]
      simp only [Bool.false_eq_true, if_false]
      simp [jsGet, h, jsGet_set_self rest k v]

theorem jsGet_set_other {key key2 : String} (h : key2 ≠ key) :
    ∀ (o : List (String × JsValue)) (v : JsValue),
      jsGet (jsSet o key2 v) key = jsGet o key
  | [], v => by
    simp [jsSet, jsGet]
    intro heq
    exact absurd heq h
  | (k0, v0) :: rest, v => by
    by_cases h0 : k0 == key2
    · have hk2 : k0 = key2 := by simpa using h0
      have : k0 ≠ key := fun hk => h (hk2 ▸ hk)
      simp [jsSet, jsGet, h0, this]
    · simp only [jsSet, h0, Bool.false_eq_true, if_false]
      by_cases h1 : k0 == key
      · simp [jsGet, h1]
      · simp [jsGet, h1, jsGet_set_other h rest v]

theorem jsGet_merge_not_mem {key : String} :
    ∀ (ps o : List (String × JsValue)), (∀ kv ∈ ps, kv.1 ≠ key) →
      jsGet (jsMerge o ps) key = jsGet o key
  | [], o, _ => rfl
  | kv :: ps, o, h => by
    have h1 : kv.1 ≠ key := h kv (by simp)
    have h2 : ∀ kv2 ∈ ps, kv2.1 ≠ key := fun kv2 hm => h kv2 (by simp [hm])
    have hstep : jsMerge o (kv :: ps) = jsMerge (jsSet o kv.1 kv.2) ps := rfl
    rw [hstep, jsGet_merge_not_mem ps _ h2, jsGet_set_other h1]

theorem handleBinariesE_of_none {ct body : String}
    (h : boundaryOf ct.data = none) : handleBinariesE ct body = Except.ok [] := by
  unfold handleBinariesE
  rw [h]

theorem assocSet_keys {m : List (String × Attachment)} {k : String}
    {v w : Attachment} (h : assocGet m k = some v) :
    (assocSet m k w).map Prod.fst = m.map Prod.fst := by
  induction m with
  | nil => simp [assocGet] at h
  | cons kv rest ih =>
    obtain ⟨k0, v0⟩ := kv
    by_cases h0 : k0 == k
    · simp [assocSet, h0]
    · simp only [assocGet, h0, Bool.false_eq_true, if_false] at h
      simp [assocSet, h0, ih h]

theorem fillPart_keys {m m2 : List (String × Attachment)} {p : List Char}
    (h : fillPart m p = Except.ok m2) : m2.map Prod.fst = m.map Prod.fst := by
  unfold fillPart at h
  cases hid : findIdLine true p with
  | none => simp only [hid] at h; injection h with h; rw [h]
  | some idc =>
    simp only [hid] at h
    cases hget : assocGet m (String.mk idc) with
    | none => simp only [hget] at h; cases h
    | some att =>
      simp only [hget] at h
      injection h with h
      rw [← h]
      exact assocSet_keys hget

theorem fillParts_keys : ∀ {ps : List (List Char)}
    {m m2 : List (String × Attachment)}, fillParts m ps = Except.ok m2 →
      m2.map Prod.fst = m.map Prod.fst := by
  intro ps
  induction ps with
  | nil =>
    intro m m2 h
    simp only [fillParts] at h
    injection h with h
    rw [h]
  | cons p ps ih =>
    intro m m2 h
    simp only [fillParts] at h
    cases hp : fillPart m p with
    | error e => rw [hp] at h; cases h
    | ok m1 =>
      rw [hp] at h
      exact (ih h).trans (fillPart_keys hp)

/-! ## Boundary recognition lemmas -/

theorem bndAt_semicolon {l b : List Char} (h : bndAt l = some b) : ';' ∈ l := by
  unfold bndAt at h
  split at h
  · split at h
    · rename_i rest2 hD
      have h1 : ';' ∈ (l.drop bndLit.length).dropWhile isBndChar := by
        rw [hD]; simp
      have h2 : ';' ∈ l.drop bndLit.length :=
        List.Sublist.mem h1 (List.dropWhile_sublist isBndChar)
      exact List.mem_of_mem_drop h2
    · cases h
  · cases h

theorem boundaryOf_none_of_no_semicolon : ∀ {l : List Char}, ';' ∉ l →
    boundaryOf l = none
  | [], _ => rfl
  | c :: rest, h => by
    have hb : bndAt (c :: rest) = none := by
      cases hba : bndAt (c :: rest) with
      | none => rfl
      | some b => exact absurd (bndAt_semicolon hba) h
    have hrest : ';' ∉ rest := fun hm => h (by simp [hm])
    simp only [boundaryOf, hb]
    exact boundaryOf_none_of_no_semicolon hrest

theorem bndAt_cons_not_b {c : Char} {cs : List Char} (h : lcEq 'b' c = false) :
    bndAt (c :: cs) = none := by
  have hfail : startsWithCI bndLit (c :: cs) = false := by
    have hb : bndLit = 'b' :: "oundary=".data := rfl
    rw [hb]
    simp [startsWithCI, h]
  unfold bndAt
  simp [hfail]

theorem boundaryOf_append_not_b : ∀ {p : List Char},
    (∀ c ∈ p, lcEq 'b' c = false) → ∀ rest, boundaryOf (p ++ rest) = boundaryOf rest
  | [], _, rest => rfl
  | c :: p, h, rest => by
    have hc : lcEq 'b' c = false := h c (by simp)
    have hp : ∀ c2 ∈ p, lcEq 'b' c2 = false := fun c2 hm => h c2 (by simp [hm])
    simp only [List.cons_append, boundaryOf, bndAt_cons_not_b hc]
    exact boundaryOf_append_not_b hp rest

/-- The `method` entry survives the body attachment (whose key is
`body`, not `method`). -/
theorem jsGet_optionsWithBody_method (rurl : String) (data : Option String)
    (exh : List (String × JsValue)) :
    jsGet (optionsWithBody rurl data exh) "method" =
      some (JsValue.str (methodOf data)) := by
  unfold optionsWithBody
  by_cases hk : isKeepAlive (jsGet (reqHeaders rurl data exh) "Connection") = true
  · rw [if_pos hk, jsGet_set_other (by decide)]
    rfl
  · rw [if_neg hk]
    rfl

/-! ## Claim theorems -/

/-- Claim C1 (code bug): the claim says `handleBinaries` never throws,
but on this input — a valid boundary, one seeded include `aaa`, and a
part whose `Content-Id` names the never-seeded `bbb` — line 149/155 of
the source assigns a property of `binaries['bbb']`, which is
`undefined`, raising a `TypeError`.  The embedding evaluates to the
error. -/
theorem claim_c1_unseeded_throws :
    handleBinariesE "multipart/related; boundary=BND; type=text/xml"
        "--BND\r\n<xop:Include href=\"cid:aaa\"></xop:Include>\r\n--BND\r\nContent-Id: <bbb>\r\n\r\nDATA\r\n--BND--"
      = Except.error () := rfl

/-- Claim C2 (counterexample): this body contains two distinct
`xop:Include` identifiers (`idA` and `idB`, exhibited by the
spec-modelled full scan), yet the parse seeds only the first: the
resulting map is exactly `{idA: {mime: null, data: null}}` and has no
entry for `idB`, refuting the claim that every one of the N identifiers
is seeded. -/
theorem claim_c2_counterexample :
    specAllIncludes ("A<xop:Include href=\"cid:idA\"></xop:Include><xop:Include href=\"cid:idB\"></xop:Include>").data
        = ["idA", "idB"] ∧
      handleBinariesE "multipart/related; boundary=BND;"
          "--BND\r\nA<xop:Include href=\"cid:idA\"></xop:Include><xop:Include href=\"cid:idB\"></xop:Include>\r\n--BND--"
        = Except.ok [("idA", Attachment.mk none none)] ∧
      assocGet [("idA", Attachment.mk none none)] "idB" = none :=
  ⟨rfl, rfl, rfl⟩

/-- Claim C2 (amended): when a boundary is present and the body contains
at least one `xop:Include` reference, the attachment map is seeded with
exactly ONE entry — the identifier of the FIRST reference (the single
`exec` call of line 118) — initialized with null mime and data; any
successfully returned map has exactly that one key. -/
theorem claim_c2_amended {ct body : String} {b idc : List Char}
    {m : List (String × Attachment)}
    (hb : boundaryOf ct.data = some b)
    (hi : firstInclude body.data = some idc)
    (hm : handleBinariesE ct body = Except.ok m) :
    m.map Prod.fst = [String.mk idc] := by
  unfold handleBinariesE at hm
  rw [hb] at hm
  simp only [hi] at hm
  have := fillParts_keys hm
  simpa using this

/-- Claim C2 (witness): the amended seeding behaviour at a concrete
boundary, body and map. -/
theorem claim_c2_witness :
    boundaryOf ("x; boundary=B;").data = some ['B'] ∧
      firstInclude ("<xop:Include href=\"cid:a\"></xop:Include>").data = some ['a'] ∧
      handleBinariesE "x; boundary=B;" "<xop:Include href=\"cid:a\"></xop:Include>"
        = Except.ok [("a", Attachment.mk none none)] ∧
      ([("a", Attachment.mk none none)].map Prod.fst
        : List String) = [String.mk ['a']] :=
  ⟨by decide, by decide, rfl,
    @claim_c2_amended "x; boundary=B;" "<xop:Include href=\"cid:a\"></xop:Include>"
      ['B'] ['a'] [("a", Attachment.mk none none)]
      (by decide) (by decide) rfl⟩

/-- Claim C3: round-trip on a well-formed synthetic multipart response
with boundary `XYZ`, an XML part referencing `cid:att1`, and a binary
part with `Content-Id: <att1>`, `Content-Type: image/png`, a blank line
and the literal data line `BINARYDATA`: the parse produces exactly
`{att1: {mime: "image/png", data: "BINARYDATA"}}`. -/
theorem claim_c3_roundtrip :
    handleBinariesE "multipart/related; boundary=XYZ; type=text/xml"
        "--XYZ\r\nContent-Type: application/xop+xml\r\n\r\n<soap:Envelope><xop:Include href=\"cid:att1\"></xop:Include></soap:Envelope>\r\n--XYZ\r\nContent-Type: image/png\r\nContent-Id: <att1>\r\n\r\nBINARYDATA\r\n--XYZ--"
      = Except.ok [("att1", Attachment.mk (some "image/png") (some "BINARYDATA"))] :=
  rfl

/-- Claim C4 (counterexample): for a non-textual (binary) body the
source never calls `handleBinaries`, so `res.binaries` is never
assigned: the attachment map is absent (`none`), refuting "always
present ... (textual or binary body)". -/
theorem claim_c4_counterexample :
    handleResponse "text/xml" (Body.bin []) = Except.ok (Body.bin [], none) := rfl

/-- Claim C4 (amended): after handling a response with a TEXTUAL body on
which the binary parse completes, the attachment map is always attached
to the response metadata, and it is empty when no boundary (hence no
binaries) is present; for non-textual bodies no map is attached. -/
theorem claim_c4_amended {ct s : String} {m : List (String × Attachment)}
    (h : handleBinariesE ct s = Except.ok m) :
    handleResponse ct (Body.str s)
        = Except.ok (Body.str (extractEnvelope s), some m) ∧
      (boundaryOf ct.data = none → m = []) := by
  constructor
  · simp only [handleResponse, h]
  · intro hb
    have h2 : handleBinariesE ct s = Except.ok [] := handleBinariesE_of_none hb
    rw [h] at h2
    exact Except.ok.inj h2

/-- Claim C4 (witness): a textual body without binaries carries the
empty map on the response. -/
theorem claim_c4_witness :
    handleBinariesE "text/xml" "hello" = Except.ok [] ∧
      (handleResponse "text/xml" (Body.str "hello")
          = Except.ok (Body.str (extractEnvelope "hello"), some []) ∧
        (boundaryOf ("text/xml").data = none → ([] : List (String × Attachment)) = [])) :=
  ⟨rfl, claim_c4_amended rfl⟩

/-- Claim C5 (counterexample): with the EMPTY boundary parameter
`boundary=;` the boundary regex still matches (capturing the empty
string), so a body containing an `xop:Include` reference seeds an
attachment entry and the parse does NOT return an empty map, refuting
"absent or empty boundary implies empty map". -/
theorem claim_c5_counterexample :
    handleBinariesE "multipart/related; boundary=;"
        "<xop:Include href=\"cid:idZ\"></xop:Include>" ≠ Except.ok [] := by
  have h1 : handleBinariesE "multipart/related; boundary=;"
      "<xop:Include href=\"cid:idZ\"></xop:Include>"
      = Except.ok [("idZ", Attachment.mk none none)] := rfl
  intro hcon
  rw [h1] at hcon
  injection hcon with hcon
  cases hcon

/-- Claim C5 (amended): whenever the `Content-Type` header has no
`boundary=[\w-]*;` match at all, the attachment parse returns the empty
map regardless of the body; an empty-but-present boundary value does
not (see the counterexample). -/
theorem claim_c5_amended (ct body : String) (h : boundaryOf ct.data = none) :
    handleBinariesE ct body = Except.ok [] :=
  handleBinariesE_of_none h

/-- Claim C5 (witness): a plain header without any boundary parameter
yields the empty map even though the body references an attachment. -/
theorem claim_c5_witness :
    boundaryOf ("text/xml").data = none ∧
      handleBinariesE "text/xml" "<xop:Include href=\"cid:q\"></xop:Include>"
        = Except.ok [] :=
  ⟨by decide, claim_c5_amended _ _ (by decide)⟩

/-- Claim C6 (counterexample): with two closing tags of the same prefix
the matched span runs to the LAST one — the whole string here — not to
the earliest closing tag, refuting the claimed non-greedy behaviour. -/
theorem claim_c6_counterexample :
    extractEnvelope "<a:Envelope>X</a:Envelope>Y</a:Envelope>"
        = "<a:Envelope>X</a:Envelope>Y</a:Envelope>" ∧
      extractEnvelope "<a:Envelope>X</a:Envelope>Y</a:Envelope>"
        ≠ "<a:Envelope>X</a:Envelope>" := by
  constructor
  · rfl
  · decide

/-- Claim C6 (amended): the intervening-content group `([\S\s]*)` of
the envelope regex is GREEDY: every occurrence of the closing tag (for
the captured prefix) situated after the start tag lies entirely within
the matched span — the span ends at the last such closing tag, not the
earliest. -/
theorem claim_c6_amended {l : List Char} {n k : Nat} (h : coreLen l = some n)
    (hk : 10 + (corePre l).length ≤ k)
    (hcl : startsWithCI (closingOf (corePre l)) (l.drop k) = true) :
    k + (corePre l).length + 12 ≤ n :=
  coreLen_greedy h hk hcl

/-- Claim C6 (witness): in the two-closing-tag body the second closing
tag starts at index 27 and the match is forced to cover it (length
40). -/
theorem claim_c6_witness :
    coreLen ("<a:Envelope>X</a:Envelope>Y</a:Envelope>").data = some 40 ∧
      10 + (corePre ("<a:Envelope>X</a:Envelope>Y</a:Envelope>").data).length ≤ 27 ∧
      startsWithCI
        (closingOf (corePre ("<a:Envelope>X</a:Envelope>Y</a:Envelope>").data))
        (("<a:Envelope>X</a:Envelope>Y</a:Envelope>").data.drop 27) = true ∧
      27 + (corePre ("<a:Envelope>X</a:Envelope>Y</a:Envelope>").data).length + 12 ≤ 40 :=
  ⟨by decide, by decide, by decide,
    claim_c6_amended (by decide) (by decide) (by decide)⟩

/-- Claim C7: envelope extraction is idempotent, extracts exactly the
envelope span from a body with surrounding junk, and returns a body
with no envelope unchanged. -/
theorem claim_c7_idempotent :
    (∀ s : String, extractEnvelope (extractEnvelope s) = extractEnvelope s) ∧
      extractEnvelope "junk<a:Envelope>X</a:Envelope>more junk"
        = "<a:Envelope>X</a:Envelope>" ∧
      extractEnvelope "no envelope here" = "no envelope here" :=
  ⟨extractEnvelope_idem, by decide, by decide⟩

/-- Claim C8 (counterexample): the extra options are merged last with
plain property assignment, so `exoptions = {method: "PUT"}` overwrites
the payload-derived method: with a null payload the built request's
method is `PUT`, not `GET`, refuting the claim quantified over every
extra options. -/
theorem claim_c8_counterexample :
    jsGet (buildRequest "http://h:8080/p" none [] [("method", JsValue.str "PUT")])
        "method" = some (JsValue.str "PUT") ∧
      jsGet (buildRequest "http://h:8080/p" none [] [("method", JsValue.str "PUT")])
        "method" ≠ some (JsValue.str "GET") := by
  have h1 : jsGet (buildRequest "http://h:8080/p" none []
      [("method", JsValue.str "PUT")]) "method" = some (JsValue.str "PUT") := rfl
  refine ⟨h1, fun hcon => ?_⟩
  rw [h1] at hcon
  injection hcon with hcon
  injection hcon with hcon
  exact absurd hcon (by decide)

/-- Claim C8 (amended): for every URL, extra headers, and every extra
options that does not itself set the `method` key, the built request's
method is GET for a null payload and POST for a non-empty payload; and
for the example `http://h:8080/p` with null payload the method is GET
and the Host header is exactly `h:8080`. -/
theorem claim_c8_amended (rurl : String) (exh exo : List (String × JsValue))
    (h : ∀ kv ∈ exo, kv.1 ≠ "method") :
    jsGet (buildRequest rurl none exh exo) "method" = some (JsValue.str "GET") ∧
      (∀ d : String, d ≠ "" →
        jsGet (buildRequest rurl (some d) exh exo) "method"
          = some (JsValue.str "POST")) ∧
      jsGet (buildRequest "http://h:8080/p" none [] []) "method"
        = some (JsValue.str "GET") ∧
      jsGet (headersOf (buildRequest "http://h:8080/p" none [] [])) "Host"
        = some (JsValue.str "h:8080") := by
  refine ⟨?_, ?_, rfl, rfl⟩
  · have hb : buildRequest rurl none exh exo
        = jsMerge (optionsWithBody rurl none exh) exo := rfl
    rw [hb, jsGet_merge_not_mem exo _ h, jsGet_optionsWithBody_method]
    rfl
  · intro d hd
    have hb : buildRequest rurl (some d) exh exo
        = jsMerge (optionsWithBody rurl (some d) exh) exo := rfl
    rw [hb, jsGet_merge_not_mem exo _ h, jsGet_optionsWithBody_method]
    have ht : (d != "") = true := bne_iff_ne.mpr hd
    simp [methodOf, jsTruthy, ht]

/-- Claim C8 (witness): the amended method selection at a concrete URL,
non-method extra option, and concrete payloads. -/
theorem claim_c8_witness :
    (∀ kv ∈ [("timeout", JsValue.num 5)], kv.1 ≠ "method") ∧
      ("p" : String) ≠ "" ∧
      jsGet (buildRequest "http://h:8080/p" none [] [("timeout", JsValue.num 5)])
        "method" = some (JsValue.str "GET") ∧
      jsGet (buildRequest "http://h:8080/p" (some "p") [] [("timeout", JsValue.num 5)])
        "method" = some (JsValue.str "POST") :=
  ⟨by decide, by decide,
    (claim_c8_amended "http://h:8080/p" [] _ (by decide)).1,
    (claim_c8_amended "http://h:8080/p" [] _ (by decide)).2.1 "p" (by decide)⟩

/-- Claim C9: caller-supplied extra headers override same-named
defaults: with `extraHeaders = {Connection: "keep-alive"}` the built
request's Connection header is exactly `keep-alive`, and — since the
keep-alive branch attaches the body to the description — its body
equals the payload (`null` for a null payload). -/
theorem claim_c9_override (rurl : String) (data : Option String) :
    jsGet (headersOf
        (buildRequest rurl data [("Connection", JsValue.str "keep-alive")] []))
        "Connection" = some (JsValue.str "keep-alive") ∧
      jsGet (buildRequest rurl data [("Connection", JsValue.str "keep-alive")] [])
        "body" = some (jsOfData data) := by
  have hconn : jsGet (reqHeaders rurl data [("Connection", JsValue.str "keep-alive")])
      "Connection" = some (JsValue.str "keep-alive") := by
    have hstep : reqHeaders rurl data [("Connection", JsValue.str "keep-alive")]
        = jsSet (baseHeaders rurl data) "Connection" (JsValue.str "keep-alive") := rfl
    rw [hstep, jsGet_set_self]
  have hka : isKeepAlive (jsGet
      (reqHeaders rurl data [("Connection", JsValue.str "keep-alive")])
      "Connection") = true := by
    rw [hconn]; rfl
  have hopts : optionsWithBody rurl data [("Connection", JsValue.str "keep-alive")]
      = jsSet (coreOptions rurl data [("Connection", JsValue.str "keep-alive")])
          "body" (jsOfData data) := by
    unfold optionsWithBody
    rw [if_pos hka]
  have hbr : buildRequest rurl data [("Connection", JsValue.str "keep-alive")] []
      = optionsWithBody rurl data [("Connection", JsValue.str "keep-alive")] := rfl
  constructor
  · have hh : jsGet (buildRequest rurl data
        [("Connection", JsValue.str "keep-alive")] []) "headers"
        = some (JsValue.obj
            (reqHeaders rurl data [("Connection", JsValue.str "keep-alive")])) := by
      rw [hbr, hopts, jsGet_set_other (by decide)]
      rfl
    unfold headersOf
    rw [hh]
    exact hconn
  · rw [hbr, hopts, jsGet_set_self]

/-- Claim C10: the boundary token is recognised only when the
`boundary=` parameter is followed by a semicolon.  For every header of
the shape `multipart/related; boundary=` followed by semicolon-free
text (e.g. the parameter last, no trailing `;`), no boundary is
extracted and the attachment map is empty regardless of the body. -/
theorem claim_c10_semicolon_required (t body : String) (h : ';' ∉ t.data) :
    boundaryOf ("multipart/related; boundary=" ++ t).data = none ∧
      handleBinariesE ("multipart/related; boundary=" ++ t) body = Except.ok [] := by
  have hdata : ("multipart/related; boundary=" ++ t).data
      = "multipart/related; ".data ++ ("boundary=".data ++ t.data) := by
    have h1 : ("multipart/related; boundary=" ++ t).data
        = "multipart/related; boundary=".data ++ t.data := String.data_append ..
    have h2 : ("multipart/related; boundary=").data
        = "multipart/related; ".data ++ "boundary=".data := by decide
    rw [h1, h2, List.append_assoc]
  have hnosemi : ';' ∉ "boundary=".data ++ t.data := by
    intro hm
    rcases List.mem_append.mp hm with h1 | h2
    · exact absurd h1 (by decide)
    · exact h h2
  have hb : boundaryOf ("multipart/related; boundary=" ++ t).data = none := by
    rw [hdata, boundaryOf_append_not_b (by decide) _]
    exact boundaryOf_none_of_no_semicolon hnosemi
  exact ⟨hb, handleBinariesE_of_none hb⟩

/-- Claim C10 (witness): the example header
`multipart/related; boundary=XYZ` with a body full of includes yields no
boundary and the empty map. -/
theorem claim_c10_witness :
    (';' ∉ ("XYZ" : String).data) ∧
      (boundaryOf ("multipart/related; boundary=" ++ "XYZ").data = none ∧
        handleBinariesE ("multipart/related; boundary=" ++ "XYZ")
          "<xop:Include href=\"cid:att1\"></xop:Include>" = Except.ok []) :=
  ⟨by decide, claim_c10_semicolon_required "XYZ" _ (by decide)⟩
